import Mathlib

/-!
# Quantum Chess Ultimate — verification of the quantum core and UI glue

A shallow embedding of the Quantum Chess Ultimate engine.  The quantum
decision core (board model, move/branch generator, measurement engine,
evaluator, search) is specified in `spec.md` §3–§6 but its Python source
is not part of the checked-in tree; those definitions are modelled from
the spec, as their doc comments state.  The Electron preload bridge and
the Zustand UI store are translated directly from the TypeScript
sources (`desktop` preload script, `frontend/src/store/uiStore.ts`).

Probabilities are modelled as exact rationals, so the spec's 1e-6
floating tolerance is met whenever the exact sum is 1.
-/

namespace QuantumChess

/-- Modelled from the spec: PieceKind — enum pawn..king (§3). -/
inductive PieceKind where
  | pawn | knight | bishop | rook | queen | king
deriving DecidableEq, Repr

/-- Modelled from the spec: piece color (§3). -/
inductive Color where
  | white | black
deriving DecidableEq, Repr

/-- Modelled from the spec: Piece = kind plus color (§3). -/
structure Piece where
  kind : PieceKind
  color : Color
deriving DecidableEq, Repr

/-- Modelled from the spec: one occupancy hypothesis of a Superposition
Group — a (square, piece, probability) triple (§3). Squares are indices
0–63 (file = sq % 8, rank = sq / 8). -/
structure Hyp where
  square : Nat
  piece : Piece
  prob : ℚ
deriving DecidableEq, Repr

instance : Inhabited Hyp := ⟨⟨0, ⟨.pawn, .white⟩, 1⟩⟩

/-- Modelled from the spec: a Superposition Group — an integer group id
and the list of occupancy hypotheses describing one piece's uncertain
location (§3, §9 arena/index storage). -/
structure Group where
  gid : Nat
  entries : List Hyp
deriving DecidableEq, Repr

/-- Modelled from the spec: the content of one square of a Board State —
definite piece, nothing, or a reference to a Superposition Group (§3). -/
inductive Cell where
  | empty
  | definite (p : Piece)
  | superposed (gid : Nat)
deriving DecidableEq, Repr

/-- Modelled from the spec: Board State — mapping from squares to cells,
 the arena of Superposition Groups, and the Entanglement Links
(pairs of group ids) (§3, §6 persisted layout). -/
structure BoardState where
  cells : List Cell
  groups : List Group
  links : List (Nat × Nat)
deriving DecidableEq, Repr

/-- The cell at a square (out-of-range squares read as empty). -/
def cellAt (s : BoardState) (sq : Nat) : Cell :=
  s.cells.getD sq .empty

/-- The probability column of a group's outcome list. -/
def groupProbs (g : Group) : List ℚ :=
  g.entries.map (·.prob)

/-- Modelled from the spec: explicit seedable randomness (§5, §9) — a
linear-congruential step on the seed; no hidden global generator. -/
def lcgNext (seed : Nat) : Nat :=
  (seed * 1103515245 + 12345) % 2147483648

/-- A uniform draw in [0, 1) derived from the seed. -/
def randQ (seed : Nat) : ℚ :=
  (lcgNext seed : ℚ) / 2147483648

/-- Categorical sampling: walk the cumulative distribution; returns the
index of the outcome in whose probability slab `r` falls (returns the
length when `r` is at least the total mass). -/
def sampleIndex : List ℚ → ℚ → Nat
  | [], _ => 0
  | p :: rest, r => if r < p then 0 else sampleIndex rest (r - p) + 1

/-- Look a group up by id in the arena. -/
def findGroup (groups : List Group) (gid : Nat) : Option Group :=
  groups.find? (fun g => g.gid == gid)

/-- Modelled from the spec: one step of the measurement sampler (§4.3).
Groups already given an outcome (as the partner of an entangled pair)
are skipped; a group in an Entanglement Link is drawn jointly with its
partner — a single shared draw picks index `i` in group A and index
`i % |B|` in group B; every other group is drawn independently. -/
def stepGroup (groups : List Group) (links : List (Nat × Nat))
    (acc : List (Nat × Hyp) × Nat) (g : Group) : List (Nat × Hyp) × Nat :=
  if (acc.1.lookup g.gid).isSome then acc
  else
    match links.find? (fun l => l.1 == g.gid || l.2 == g.gid) with
    | some l =>
      match findGroup groups l.1, findGroup groups l.2 with
      | some a, some b =>
        (acc.1 ++
          [(l.1, a.entries.getD (sampleIndex (groupProbs a) (randQ acc.2)) default),
           (l.2, b.entries.getD
             (sampleIndex (groupProbs a) (randQ acc.2) % b.entries.length) default)],
         lcgNext acc.2)
      | _, _ =>
        (acc.1 ++
          [(g.gid, g.entries.getD (sampleIndex (groupProbs g) (randQ acc.2)) default)],
         lcgNext acc.2)
    | none =>
      (acc.1 ++
        [(g.gid, g.entries.getD (sampleIndex (groupProbs g) (randQ acc.2)) default)],
       lcgNext acc.2)

/-- Modelled from the spec: the sampled outcome of every group of the
state, entanglement respected (§4.3). -/
def measureOutcomes (s : BoardState) (seed : Nat) : List (Nat × Hyp) :=
  (s.groups.foldl (stepGroup s.groups s.links) ([], seed)).1

/-- Modelled from the spec: replace one cell by its measured content —
definite and empty cells are untouched; a superposed cell becomes the
sampled piece on the sampled square and empty elsewhere (§4.3). -/
def resolveCell (outs : List (Nat × Hyp)) (sq : Nat) : Cell → Cell
  | .empty => .empty
  | .definite p => .definite p
  | .superposed gid =>
    match outs.lookup gid with
    | some h => if h.square == sq then .definite h.piece else .empty
    | none => .empty

/-- Resolve every cell, numbering squares from `sq`. -/
def resolveCells (outs : List (Nat × Hyp)) (sq : Nat) : List Cell → List Cell
  | [] => []
  | c :: rest => resolveCell outs sq c :: resolveCells outs (sq + 1) rest

/-- Modelled from the spec: the Measurement Engine (§4.3, §6
`measure(BoardState, rngSeed) -> BoardState`) — sample an outcome for
every group (jointly for entangled pairs), replace every superposed
cell by its sampled definite occupancy, and delete all groups and
Entanglement Links. -/
def measure (s : BoardState) (seed : Nat) : BoardState :=
  { cells := resolveCells (measureOutcomes s seed) 0 s.cells
    groups := []
    links := [] }

/-- Does this cell refer to a Superposition Group? (§4.1
`isSuperposed`, read on one cell.) -/
def isSuperposedCell : Cell → Bool
  | .superposed _ => true
  | _ => false

/-- A fully definite Board State: no cell refers to a Superposition
Group and the group arena and link list are empty. -/
def isDefiniteState (s : BoardState) : Prop :=
  (∀ c ∈ s.cells, isSuperposedCell c = false) ∧ s.groups = [] ∧ s.links = []

instance (s : BoardState) : Decidable (isDefiniteState s) := by
  unfold isDefiniteState
  infer_instance

/-- Modelled from the spec: Move — from, to, optional promotion (§3). -/
structure Move where
  src : Nat
  dst : Nat
  promotion : Option PieceKind
deriving DecidableEq, Repr

/-- Modelled from the spec: branch labels (§3). -/
inductive BranchLabel where
  | deterministic | superpositionCreated | measurementTriggered | entanglementFormed
deriving DecidableEq, Repr

/-- Modelled from the spec: Branch — resulting Board State, probability,
label (§3). -/
structure Branch where
  state : BoardState
  prob : ℚ
  label : BranchLabel
deriving DecidableEq, Repr

/-- Modelled from the spec: the error taxonomy relevant to the
move/branch generator (§7): InvalidMove, source square empty or wrong
color. -/
inductive MoveError where
  | invalidMove
deriving DecidableEq, Repr

/-- Write one cell of the square list. -/
def setCell (cells : List Cell) (sq : Nat) (c : Cell) : List Cell :=
  cells.set sq c

/-- Rescale a hypothesis list so its probabilities sum to 1. -/
def renormalize (l : List Hyp) : List Hyp :=
  l.map (fun h => { h with prob := h.prob / (l.map (·.prob)).sum })

/-- Modelled from the spec (§4.2 edge case): capturing a superposed
piece removes the captured hypothesis from its group and renormalizes
the remaining probabilities. -/
def removeHypAt (g : Group) (sq : Nat) : Group :=
  { g with entries := renormalize (g.entries.filter (fun h => h.square != sq)) }

/-- Modelled from the spec (§4.2): the moved piece after an optional
promotion is applied. -/
def movedPiece (p : Piece) (m : Move) : Piece :=
  match m.promotion with
  | some k => { p with kind := k }
  | none => p

/-- Modelled from the spec (§4.2 edge case): the group arena after a
move lands on `dst` — capturing a superposed piece removes only the
captured hypothesis from its group, renormalizing the rest (the group
is deleted when it becomes empty); any other landing leaves the arena
untouched. -/
def captureGroups (s : BoardState) (dst : Nat) : List Group :=
  match cellAt s dst with
  | .superposed gid =>
    (s.groups.map (fun g => if g.gid == gid then removeHypAt g dst else g)).filter
      (fun g => !g.entries.isEmpty)
  | _ => s.groups

/-- Modelled from the spec (§4.2 step 1): the deterministic resulting
state — the piece is displaced from `src` to `dst`, a promotion applies
to it, a definite captured piece is overwritten, and a superposed
captured piece only loses its hypothesis at `dst`. A state whose `src`
square is not a definite piece is returned unchanged. -/
def applyDet (s : BoardState) (m : Move) : BoardState :=
  match cellAt s m.src with
  | .definite p =>
    { cells := setCell (setCell s.cells m.src .empty) m.dst (.definite (movedPiece p m))
      groups := captureGroups s m.dst
      links := s.links }
  | _ => s

/-- File (0–7) of a square index. -/
def sqFile (sq : Nat) : Nat := sq % 8

/-- Rank (0–7) of a square index. -/
def sqRank (sq : Nat) : Nat := sq / 8

/-- Sign of an integer difference, for ray directions. -/
def dirStep (a b : Nat) : Int :=
  if a < b then 1 else if b < a then -1 else 0

/-- A square from integer file/rank coordinates, when on the board. -/
def mkSquare (f r : Int) : Option Nat :=
  if 0 ≤ f ∧ f < 8 ∧ 0 ≤ r ∧ r < 8 then some (r.toNat * 8 + f.toNat) else none

/-- Modelled from the spec (§4.2 superposition outcome): the
heuristically chosen alternative square for the moved piece — the empty
square one step beyond the destination along the direction of movement,
when it exists (the spec leaves the heuristic open; §9 notes it need not
be legality-constrained). -/
def altSquare (s : BoardState) (m : Move) : Option Nat :=
  let df := dirStep (sqFile m.src) (sqFile m.dst)
  let dr := dirStep (sqRank m.src) (sqRank m.dst)
  match mkSquare ((sqFile m.dst : Int) + df) ((sqRank m.dst : Int) + dr) with
  | some alt => if cellAt s alt == .empty ∧ alt ≠ m.dst then some alt else none
  | none => none

/-- A fresh group id: one more than every id in use. -/
def freshGid (s : BoardState) : Nat :=
  (s.groups.map (·.gid)).foldr max 0 + 1

/-- The eight neighbor squares of a square. -/
def neighborSquares (sq : Nat) : List Nat :=
  [(-1, -1), (-1, 0), (-1, 1), (0, -1), (0, 1), (1, -1), (1, 0), (1, 1)].filterMap
    (fun d => mkSquare ((sqFile sq : Int) + d.1) ((sqRank sq : Int) + d.2))

/-- Modelled from the spec (§4.2 entanglement outcome): the first
definite non-king piece adjacent to the destination square. -/
def findNeighborPiece (s : BoardState) (sq : Nat) : Option (Nat × Piece) :=
  (neighborSquares sq).firstM (fun n =>
    match cellAt s n with
    | .definite p => if p.kind == .king then none else some (n, p)
    | _ => none)

/-- Modelled from the spec (§4.2 step 2): the single deterministic
Branch — deterministic state, probability 1.0, label deterministic. -/
def detBranch (s : BoardState) (m : Move) : Branch :=
  { state := applyDet s m, prob := 1, label := .deterministic }

/-- Modelled from the spec (§4.2 superposition outcome): a Superposition
Group for the moved piece spanning its destination and the heuristic
alternative square, weighted toward the destination (3/5 vs 2/5, so the
destination gets at least 0.5 and the weights sum to 1). Falls back to
the deterministic Branch when no alternative square exists. -/
def superpositionBranch (s : BoardState) (m : Move) (moved : Piece) : Branch :=
  match altSquare (applyDet s m) m with
  | none => detBranch s m
  | some alt =>
    { state :=
        { cells := setCell (setCell (applyDet s m).cells m.dst
            (.superposed (freshGid (applyDet s m)))) alt (.superposed (freshGid (applyDet s m)))
          groups := (applyDet s m).groups ++
            [⟨freshGid (applyDet s m), [⟨m.dst, moved, 3 / 5⟩, ⟨alt, moved, 2 / 5⟩]⟩]
          links := (applyDet s m).links }
      prob := 1
      label := .superpositionCreated }

/-- Modelled from the spec (§4.2 measurement outcome): when any
superposition exists on the board, the Measurement Engine collapses the
whole state before the deterministic move is applied; otherwise the
deterministic Branch is emitted. -/
def measurementBranch (s : BoardState) (m : Move) (seed : Nat) : Branch :=
  if s.groups.isEmpty then detBranch s m
  else
    { state := applyDet (measure s seed) m
      prob := 1
      label := .measurementTriggered }

/-- Modelled from the spec (§4.2 entanglement outcome): when a definite
non-king piece lies adjacent to the destination, create a Superposition
Group for the moved piece, a (one-outcome) group for the neighbor, and
an Entanglement Link between them; otherwise fall back to the
deterministic Branch. -/
def entanglementBranch (s : BoardState) (m : Move) (moved : Piece) : Branch :=
  match findNeighborPiece (applyDet s m) m.dst, altSquare (applyDet s m) m with
  | some nb, some alt =>
    { state :=
        { cells := setCell (setCell (setCell (applyDet s m).cells m.dst
            (.superposed (freshGid (applyDet s m)))) alt
            (.superposed (freshGid (applyDet s m)))) nb.1
            (.superposed (freshGid (applyDet s m) + 1))
          groups := (applyDet s m).groups ++
            [⟨freshGid (applyDet s m), [⟨m.dst, moved, 3 / 5⟩, ⟨alt, moved, 2 / 5⟩]⟩,
             ⟨freshGid (applyDet s m) + 1, [⟨nb.1, nb.2, 1⟩]⟩]
          links := (applyDet s m).links ++ [(freshGid (applyDet s m), freshGid (applyDet s m) + 1)] }
      prob := 1
      label := .entanglementFormed }
  | _, _ => detBranch s m

/-- Modelled from the spec (§4.2 steps 2–3): after the legality check,
draw r; when r ≥ p or the mover is a king emit the single deterministic
Branch, else select one of the three quantum outcomes uniformly. -/
def quantumBranch (s : BoardState) (m : Move) (p : Piece) (q : ℚ) (seed : Nat) : Branch :=
  if q ≤ randQ seed ∨ p.kind = .king then detBranch s m
  else
    match lcgNext (lcgNext seed) % 3 with
    | 0 => superpositionBranch s m (movedPiece p m)
    | 1 => measurementBranch s m (lcgNext (lcgNext (lcgNext seed)))
    | _ => entanglementBranch s m (movedPiece p m)

/-- Modelled from the spec (§4.2, §6): the Move/Branch Generator —
`applyMove(BoardState, Move, color, quantumProbability, rngSeed)`;
rejects a move whose source square holds no definite piece of the
mover's color with InvalidMove (the caller keeps the prior state),
otherwise emits the Branch list (one Branch per call path). -/
def applyMove (s : BoardState) (m : Move) (c : Color) (q : ℚ) (seed : Nat) :
    Except MoveError (List Branch) :=
  match cellAt s m.src with
  | .definite p =>
    if p.color = c then .ok [quantumBranch s m p q seed]
    else .error .invalidMove
  | _ => .error .invalidMove

/-- Does the source square hold a definite piece of this color? (§4.2
input check, §7 InvalidMove.) -/
def hasOwnPiece (s : BoardState) (sq : Nat) (c : Color) : Prop :=
  ∃ p, cellAt s sq = .definite p ∧ p.color = c

instance (s : BoardState) (sq : Nat) (c : Color) : Decidable (hasOwnPiece s sq c) := by
  unfold hasOwnPiece
  match cellAt s sq with
  | .definite p =>
    refine if h : p.color = c then .isTrue ⟨p, rfl, h⟩ else .isFalse ?_
    rintro ⟨p', hp, hc⟩
    cases hp
    exact h hc
  | .empty => exact .isFalse (by rintro ⟨p, hp, -⟩; cases hp)
  | .superposed gid => exact .isFalse (by rintro ⟨p, hp, -⟩; cases hp)

/-- Modelled from the spec (§4.4): standard piece values — pawn 1,
knight/bishop 3, rook 5, queen 9, king excluded. -/
def pieceValue : PieceKind → ℚ
  | .pawn => 1
  | .knight => 3
  | .bishop => 3
  | .rook => 5
  | .queen => 9
  | .king => 0

/-- +1 for white, −1 for black (scores are signed, positive favors
white). -/
def colorSign : Color → ℚ
  | .white => 1
  | .black => -1

/-- Material contribution of one cell (definite pieces only). -/
def cellMaterial : Cell → ℚ
  | .definite p => colorSign p.color * pieceValue p.kind
  | _ => 0

/-- Modelled from the spec (§4.4): material balance, white minus
black. -/
def materialBalance (s : BoardState) : ℚ :=
  (s.cells.map cellMaterial).sum

/-- Positional contribution of one cell: pawn advancement toward
promotion plus a central-square bonus, both far below one pawn. -/
def cellPositional (sq : Nat) : Cell → ℚ
  | .definite p =>
    let adv : ℚ :=
      if p.kind = .pawn then
        (if p.color = .white then (sqRank sq : ℚ) else 7 - (sqRank sq : ℚ)) / 50
      else 0
    let center : ℚ := if sq = 27 ∨ sq = 28 ∨ sq = 35 ∨ sq = 36 then 1 / 10 else 0
    colorSign p.color * (adv + center)
  | _ => 0

/-- Modelled from the spec (§4.4): positional balance summed over the
board, numbering squares from `sq`. -/
def positionalFrom (sq : Nat) : List Cell → ℚ
  | [] => 0
  | c :: rest => cellPositional sq c + positionalFrom (sq + 1) rest

/-- Modelled from the spec (§4.4): the uncertainty bonus — a fixed
tactical-potential bonus per formerly superposed piece of each owner,
capped below one pawn's value. -/
def uncertaintyBonus (nWhite nBlack : Nat) : ℚ :=
  min ((nWhite : ℚ) * (1 / 4)) (9 / 10) - min ((nBlack : ℚ) * (1 / 4)) (9 / 10)

/-- Modelled from the spec (§4.4, §6): `evaluate(BoardState,
uncertainty counts) -> float` — material plus positional plus capped
uncertainty bonus; scores a definite Board State, positive favors
white. -/
def evaluate (s : BoardState) (nWhite nBlack : Nat) : ℚ :=
  materialBalance s + positionalFrom 0 s.cells + uncertaintyBonus nWhite nBlack

/-- Knight leap offsets. -/
def knightOffsets : List (Int × Int) :=
  [(1, 2), (2, 1), (2, -1), (1, -2), (-1, -2), (-2, -1), (-2, 1), (-1, 2)]

/-- King step offsets (the eight directions). -/
def kingOffsets : List (Int × Int) :=
  [(-1, -1), (-1, 0), (-1, 1), (0, -1), (0, 1), (1, -1), (1, 0), (1, 1)]

/-- Rook ray directions. -/
def rookDirs : List (Int × Int) := [(1, 0), (-1, 0), (0, 1), (0, -1)]

/-- Bishop ray directions. -/
def bishopDirs : List (Int × Int) := [(1, 1), (1, -1), (-1, 1), (-1, -1)]

/-- The on-board squares obtained by adding each offset to a square. -/
def leapTargets (sq : Nat) (offs : List (Int × Int)) : List Nat :=
  offs.filterMap (fun d => mkSquare ((sqFile sq : Int) + d.1) ((sqRank sq : Int) + d.2))

/-- The on-board squares along one ray from a square (geometry only; the
minimal internal generator of §4.5 is restricted to piece-movement
geometry and does not trace blockers). -/
def rayTargets (sq : Nat) (d : Int × Int) : List Nat :=
  (List.range 7).filterMap (fun k =>
    mkSquare ((sqFile sq : Int) + d.1 * ((k : Int) + 1)) ((sqRank sq : Int) + d.2 * ((k : Int) + 1)))

/-- Pawn geometry: the forward square when empty, plus the forward
diagonals when they hold a definite enemy piece. -/
def pawnTargets (s : BoardState) (sq : Nat) (c : Color) : List Nat :=
  let dr : Int := match c with | .white => 1 | .black => -1
  let fwd := (mkSquare (sqFile sq : Int) ((sqRank sq : Int) + dr)).toList.filter
    (fun t => cellAt s t == .empty)
  let caps := (leapTargets sq [(-1, dr), (1, dr)]).filter (fun t =>
    match cellAt s t with
    | .definite p => p.color != c
    | _ => false)
  fwd ++ caps

/-- Modelled from the spec (§4.5 step 1): the minimal internal move
generator, restricted to piece-movement geometry. -/
def pieceTargets (s : BoardState) (sq : Nat) (p : Piece) : List Nat :=
  match p.kind with
  | .knight => leapTargets sq knightOffsets
  | .king => leapTargets sq kingOffsets
  | .rook => rookDirs.flatMap (rayTargets sq)
  | .bishop => bishopDirs.flatMap (rayTargets sq)
  | .queen => (rookDirs ++ bishopDirs).flatMap (rayTargets sq)
  | .pawn => pawnTargets s sq p.color

/-- A target square not occupied by one's own definite piece. -/
def notOwnSquare (s : BoardState) (c : Color) (sq : Nat) : Bool :=
  match cellAt s sq with
  | .definite p => p.color != c
  | _ => true

/-- Modelled from the spec (§4.5 step 1): candidate moves for the side
to move — every geometric target of every definite own piece that does
not land on an own definite piece. -/
def legalMoves (s : BoardState) (c : Color) : List Move :=
  (List.range 64).flatMap (fun sq =>
    match cellAt s sq with
    | .definite p =>
      if p.color == c then
        ((pieceTargets s sq p).filter (notOwnSquare s c)).map (fun t => ⟨sq, t, none⟩)
      else []
    | _ => [])

/-- The opponent's color. -/
def otherColor : Color → Color
  | .white => .black
  | .black => .white

/-- Modelled from the spec (§4.5 terminal conditions, §8): the terminal
score when the side to move has no legal moves — a mate-magnitude score
against the side to move, adjusted by remaining depth to prefer faster
mates. -/
def terminalScore (c : Color) (depth : Nat) : ℚ :=
  match c with
  | .white => -(1000000 - (depth : ℚ))
  | .black => 1000000 - (depth : ℚ)

/-- Number of Superposition Groups whose piece belongs to this color
(the first hypothesis names the group's piece), used as the evaluator's
uncertainty count for states measured at a leaf. -/
def countGroupsOf (s : BoardState) (c : Color) : Nat :=
  (s.groups.filter (fun g =>
    match g.entries with
    | h :: _ => h.piece.color == c
    | [] => false)).length

/-- Modelled from the spec (§4.5 step 3): a leaf is measured before it
is scored; the counts of groups measured away are passed to the
evaluator as its uncertainty counts. -/
def leafScore (s : BoardState) (seed : Nat) : ℚ :=
  evaluate (measure s seed) (countGroupsOf s .white) (countGroupsOf s .black)

/-- A per-move seed derived from the node seed and the move, keeping the
whole search a function of the injected seed (§5). -/
def moveSeed (seed : Nat) (m : Move) : Nat :=
  lcgNext (seed + m.src * 64 + m.dst)

/-- Expected-value combination across the branches of one move (§4.5
step 3): each branch's score weighted by its probability. -/
def branchExpectation (f : BoardState → ℚ) : List Branch → ℚ
  | [] => 0
  | b :: rest => b.prob * f b.state + branchExpectation f rest

/-- Fold a list of scores into the best one for this color (white
maximizes, black minimizes). -/
def bestScore (c : Color) (v : ℚ) : List ℚ → ℚ
  | [] => v
  | w :: rest =>
    bestScore c (match c with | .white => max v w | .black => min v w) rest

/-- Modelled from the spec (§4.5): the quantum-aware minimax value of a
position — at depth 0 the state is measured and evaluated; otherwise
candidate moves are enumerated, each move's branch set is combined by
expected value over the recursive score, and the side to move picks its
best move value (no legal moves yields the terminal score).  Alpha-beta
pruning is a value-preserving optimization of this definition and is
elided from the model. -/
def searchScore : Nat → BoardState → Color → ℚ → Nat → ℚ
  | 0, s, _, _, seed => leafScore s seed
  | depth + 1, s, c, q, seed =>
    match legalMoves s c with
    | [] => terminalScore c (depth + 1)
    | m0 :: ms =>
      let value := fun (m : Move) =>
        match applyMove s m c q (moveSeed seed m) with
        | .ok bs => branchExpectation
            (fun t => searchScore depth t (otherColor c) q (lcgNext (moveSeed seed m))) bs
        | .error _ => terminalScore c (depth + 1)
      bestScore c (value m0) (ms.map value)

/-- Modelled from the spec (§4.5, §6): the search result — best move
plus its expected score; the move is null when no legal moves exist. -/
structure SearchResult where
  move : Option Move
  score : ℚ
deriving DecidableEq, Repr

/-- Pick the best-scored move for this color from scored candidates. -/
def pickBest (c : Color) (best : Move × ℚ) : List (Move × ℚ) → Move × ℚ
  | [] => best
  | mv :: rest =>
    if (match c with | .white => decide (best.2 < mv.2) | .black => decide (mv.2 < best.2))
    then pickBest c mv rest
    else pickBest c best rest

/-- Modelled from the spec (§4.5, §6): `findBestMove(BoardState, color,
depth, deadline, quantumProbability, rngSeed)` — when no legal moves
exist, a null move with the terminal score is returned rather than an
error; at depth 0 the measured current position's evaluation is
returned; otherwise the root maximizes (white) or minimizes (black) the
expected-value score over candidate moves.  The wall-clock deadline of
§5 has no shallow-embedding counterpart; the parameter is kept for
signature fidelity and the model explores the full depth. -/
def findBestMove (s : BoardState) (c : Color) (depth : Nat) (deadline : Nat) (q : ℚ)
    (seed : Nat) : SearchResult :=
  match legalMoves s c with
  | [] => { move := none, score := terminalScore c depth }
  | m0 :: ms =>
    match depth with
    | 0 => { move := none, score := leafScore s seed }
    | d + 1 =>
      let value := fun (m : Move) =>
        match applyMove s m c q (moveSeed seed m) with
        | .ok bs => branchExpectation
            (fun t => searchScore d t (otherColor c) q (lcgNext (moveSeed seed m))) bs
        | .error _ => terminalScore c (d + 1)
      let best := pickBest c (m0, value m0) (ms.map (fun m => (m, value m)))
      { move := some best.1, score := best.2 }

/-! ## Electron preload bridge (translated from the desktop preload
script: `SEND_CHANNELS`, the `invoke` allow-list, and the guarded
`send`/`invoke` functions exposed on `window.quantumChess`). -/

/-- The `SEND_CHANNELS` allow-list of the preload script. -/
def sendChannels : List String :=
  ["game:save", "game:load", "game:export-pgn", "app:check-updates"]

/-- The `invoke` allow-list of the preload script. -/
def invokeAllowed : List String :=
  ["game:save", "game:load", "game:export-pgn", "dialog:open", "dialog:save"]

/-- Outcome of the bridge's `invoke`: either the call is forwarded to
`ipcRenderer.invoke` on the channel, or a rejected promise naming the
channel is returned. -/
inductive InvokeOutcome where
  | forwarded (channel : String)
  | rejected (channel : String)
deriving DecidableEq, Repr

/-- Effect of the bridge's `send`: either `ipcRenderer.send` is called
on the channel, or nothing happens. -/
inductive SendEffect where
  | ipcSend (channel : String)
  | noIpc
deriving DecidableEq, Repr

/-- The preload bridge's `invoke`: forwards to `ipcRenderer.invoke`
exactly on the allow-listed channels, otherwise returns a rejected
promise. -/
def bridgeInvoke (channel : String) : InvokeOutcome :=
  if channel ∈ invokeAllowed then .forwarded channel else .rejected channel

/-- The preload bridge's `send`: calls `ipcRenderer.send` exactly on the
`SEND_CHANNELS` channels, otherwise performs no IPC call. -/
def bridgeSend (channel : String) : SendEffect :=
  if channel ∈ sendChannels then .ipcSend channel else .noIpc

/-! ## Zustand UI store (translated from
`frontend/src/store/uiStore.ts`). -/

/-- The two themes of the UI store. -/
inductive Theme where
  | dark | light
deriving DecidableEq, Repr

/-- The state of the UI store. -/
structure UIStore where
  showQuantumOverlay : Bool
  showAnalysisPanel : Bool
  theme : Theme
  boardFlipped : Bool
deriving DecidableEq, Repr

/-- The UI store's initial state. -/
def initialUIStore : UIStore :=
  { showQuantumOverlay := true, showAnalysisPanel := true, theme := .dark,
    boardFlipped := false }

/-- `toggleQuantumOverlay` of the UI store. -/
def toggleQuantumOverlay (s : UIStore) : UIStore :=
  { s with showQuantumOverlay := !s.showQuantumOverlay }

/-- `toggleAnalysisPanel` of the UI store. -/
def toggleAnalysisPanel (s : UIStore) : UIStore :=
  { s with showAnalysisPanel := !s.showAnalysisPanel }

/-- `toggleTheme` of the UI store. -/
def toggleTheme (s : UIStore) : UIStore :=
  { s with theme := match s.theme with | .dark => .light | .light => .dark }

/-- `flipBoard` of the UI store. -/
def flipBoard (s : UIStore) : UIStore :=
  { s with boardFlipped := !s.boardFlipped }

/-! ## Invariants and reachability -/

/-- The §3 Superposition Group invariant: every hypothesis carries a
probability in (0, 1] and the probabilities sum to exactly 1. -/
def wfGroup (g : Group) : Prop :=
  (∀ h ∈ g.entries, 0 < h.prob) ∧ (groupProbs g).sum = 1

instance (g : Group) : Decidable (wfGroup g) := by
  unfold wfGroup
  infer_instance

/-- A well-formed Board State: every Superposition Group satisfies the
§3 invariant. -/
def wfState (s : BoardState) : Prop :=
  ∀ g ∈ s.groups, wfGroup g

instance (s : BoardState) : Decidable (wfState s) := by
  unfold wfState
  infer_instance

/-- No Superposition Group of the state contains a king hypothesis (§3:
the king piece may never belong to a group). -/
def kingFree (s : BoardState) : Prop :=
  ∀ g ∈ s.groups, ∀ h ∈ g.entries, h.piece.kind ≠ .king

instance (s : BoardState) : Decidable (kingFree s) := by
  unfold kingFree
  infer_instance

/-- Board States reachable from a start state through the two
state-producing core calls: every Branch state emitted by `applyMove`
and every output of `measure` (§6). -/
inductive Reachable : BoardState → BoardState → Prop where
  | refl (s : BoardState) : Reachable s s
  | measureStep {s t : BoardState} (seed : Nat) :
      Reachable s t → Reachable s (measure t seed)
  | moveStep {s t : BoardState} {m : Move} {c : Color} {q : ℚ} {seed : Nat}
      {bs : List Branch} {b : Branch} :
      Reachable s t → applyMove t m c q seed = .ok bs → b ∈ bs → Reachable s b.state

/-! ## Concrete demonstration states -/

/-- An entirely empty board. -/
def emptyBoard : BoardState :=
  ⟨List.replicate 64 .empty, [], []⟩

/-- A board holding only the white king on square 4 (e1). -/
def kingBoard : BoardState :=
  ⟨(List.replicate 64 Cell.empty).set 4 (.definite ⟨.king, .white⟩), [], []⟩

/-- A white pawn superposed over squares 0 and 8, half and half. -/
def demoGroupA : Group :=
  ⟨1, [⟨0, ⟨.pawn, .white⟩, mkRat 1 2⟩, ⟨8, ⟨.pawn, .white⟩, mkRat 1 2⟩]⟩

/-- A black knight superposed over squares 16 and 24, one third and two
thirds. -/
def demoGroupB : Group :=
  ⟨2, [⟨16, ⟨.knight, .black⟩, mkRat 1 3⟩, ⟨24, ⟨.knight, .black⟩, mkRat 2 3⟩]⟩

/-- A board carrying the two demonstration groups joined by an
Entanglement Link. -/
def demoEntangled : BoardState :=
  ⟨((((List.replicate 64 Cell.empty).set 0 (.superposed 1)).set 8 (.superposed 1)).set 16
      (.superposed 2)).set 24 (.superposed 2),
   [demoGroupA, demoGroupB], [(1, 2)]⟩

/-- A small, fully definite board. -/
def demoDefiniteBoard : BoardState :=
  ⟨[.definite ⟨.pawn, .white⟩, .empty, .definite ⟨.rook, .black⟩], [], []⟩

/-- A black bishop group not linked to anything, listed ahead of the
entangled pair. -/
def demoGroupC : Group :=
  ⟨5, [⟨40, ⟨.bishop, .black⟩, 1⟩]⟩

/-- A board carrying an extra unlinked group in front of the two
entangled demonstration groups. -/
def demoEntangledPlus : BoardState :=
  ⟨(((((List.replicate 64 Cell.empty).set 0 (.superposed 1)).set 8 (.superposed 1)).set 16
      (.superposed 2)).set 24 (.superposed 2)).set 40 (.superposed 5),
   [demoGroupC, demoGroupA, demoGroupB], [(1, 2)]⟩

/-- The §4.3 joint-collapse outcome for an entangled pair: one index
`i` into A's outcome list was sampled, and the outcome map assigns A
its outcome `i` and B its outcome `i % |B|`. -/
def jointDone (A B : Group) (outs : List (Nat × Hyp)) : Prop :=
  ∃ i, i < A.entries.length ∧
    outs.lookup A.gid = some (A.entries.getD i default) ∧
    outs.lookup B.gid = some (B.entries.getD (i % B.entries.length) default)

/-! ## Helper lemmas -/

theorem sum_map_div (l : List Hyp) (c : ℚ) :
    (l.map (fun h => h.prob / c)).sum = (l.map (·.prob)).sum / c := by
  induction l with
  | nil => simp
  | cons a t ih => simp [ih, add_div]

theorem randQ_nonneg (seed : Nat) : 0 ≤ randQ seed := by
  unfold randQ
  positivity

theorem randQ_lt_one (seed : Nat) : randQ seed < 1 := by
  unfold randQ lcgNext
  rw [div_lt_one (by norm_num)]
  exact_mod_cast Nat.mod_lt _ (by norm_num)

theorem sampleIndex_lt_length (l : List ℚ) (r : ℚ) (h0 : 0 ≤ r) (hr : r < l.sum) :
    sampleIndex l r < l.length := by
  induction l generalizing r with
  | nil =>
    simp only [List.sum_nil] at hr
    exact absurd (lt_of_le_of_lt h0 hr) (lt_irrefl 0)
  | cons p t ih =>
    by_cases hrp : r < p
    · simp [sampleIndex, hrp]
    · have h0' : 0 ≤ r - p := by
        have := not_lt.mp hrp
        linarith
      have hr' : r - p < t.sum := by
        simp only [List.sum_cons] at hr
        linarith
      simp only [sampleIndex, if_neg hrp, List.length_cons]
      exact Nat.succ_lt_succ (ih _ h0' hr')

theorem resolveCell_not_superposed (outs : List (Nat × Hyp)) (sq : Nat) (c : Cell) :
    isSuperposedCell (resolveCell outs sq c) = false := by
  cases c with
  | empty => rfl
  | definite p => rfl
  | superposed gid =>
    rw [resolveCell]
    cases outs.lookup gid with
    | none => rfl
    | some h =>
      by_cases hsq : h.square = sq <;> simp [hsq, isSuperposedCell]

theorem resolveCells_not_superposed (outs : List (Nat × Hyp)) (k : Nat) (cs : List Cell) :
    ∀ c ∈ resolveCells outs k cs, isSuperposedCell c = false := by
  induction cs generalizing k with
  | nil => intro c hc; cases hc
  | cons a t ih =>
    intro c hc
    rcases List.mem_cons.mp hc with h | h
    · subst h; exact resolveCell_not_superposed outs k a
    · exact ih (k + 1) c h

theorem resolveCells_id (outs : List (Nat × Hyp)) (k : Nat) (cs : List Cell)
    (h : ∀ c ∈ cs, isSuperposedCell c = false) : resolveCells outs k cs = cs := by
  induction cs generalizing k with
  | nil => rfl
  | cons a t ih =>
    have ha := h a (List.mem_cons_self a t)
    have hres : resolveCell outs k a = a := by
      cases a with
      | empty => rfl
      | definite p => rfl
      | superposed gid => simp [isSuperposedCell] at ha
    simp only [resolveCells, hres, ih (k + 1) (fun c hc => h c (List.mem_cons_of_mem a hc))]

theorem measureOutcomes_nil_groups (s : BoardState) (seed : Nat) (h : s.groups = []) :
    measureOutcomes s seed = [] := by
  unfold measureOutcomes
  rw [h]
  rfl

theorem measure_wf (s : BoardState) (seed : Nat) : wfState (measure s seed) := by
  intro g hg
  cases hg

theorem renormalize_probs_pos (l : List Hyp) (hpos : ∀ h ∈ l, 0 < h.prob)
    (hne : l ≠ []) : ∀ h ∈ renormalize l, 0 < h.prob := by
  have htotpos : 0 < (l.map (·.prob)).sum := by
    refine List.sum_pos _ ?_ ?_
    · intro x hx
      rcases List.mem_map.mp hx with ⟨h, hh, rfl⟩
      exact hpos h hh
    · simpa using hne
  intro h hh
  rcases List.mem_map.mp hh with ⟨h0, hh0, rfl⟩
  exact div_pos (hpos h0 hh0) htotpos

theorem renormalize_sum_one (l : List Hyp) (hpos : ∀ h ∈ l, 0 < h.prob)
    (hne : l ≠ []) : ((renormalize l).map (·.prob)).sum = 1 := by
  have htotpos : 0 < (l.map (·.prob)).sum := by
    refine List.sum_pos _ ?_ ?_
    · intro x hx
      rcases List.mem_map.mp hx with ⟨h, hh, rfl⟩
      exact hpos h hh
    · simpa using hne
  unfold renormalize
  rw [List.map_map]
  have hcomp : ((fun h : Hyp => h.prob) ∘
      fun h : Hyp => { h with prob := h.prob / (l.map (·.prob)).sum }) =
      fun h : Hyp => h.prob / (l.map (·.prob)).sum := rfl
  rw [hcomp, sum_map_div, div_self (ne_of_gt htotpos)]

theorem removeHypAt_wf (g : Group) (sq : Nat) (hpos : ∀ h ∈ g.entries, 0 < h.prob)
    (hne : (removeHypAt g sq).entries ≠ []) : wfGroup (removeHypAt g sq) := by
  have hkpos : ∀ h ∈ g.entries.filter (fun h => h.square != sq), 0 < h.prob := fun h hh =>
    hpos h (List.mem_of_mem_filter hh)
  have hkne : g.entries.filter (fun h => h.square != sq) ≠ [] := by
    intro hk
    apply hne
    show renormalize (g.entries.filter (fun h => h.square != sq)) = []
    rw [hk]
    rfl
  exact ⟨renormalize_probs_pos _ hkpos hkne, renormalize_sum_one _ hkpos hkne⟩

theorem removeHypAt_piece (g : Group) (sq : Nat) (h : Hyp)
    (hh : h ∈ (removeHypAt g sq).entries) : ∃ h0 ∈ g.entries, h.piece = h0.piece := by
  rcases List.mem_map.mp hh with ⟨h0, hh0, rfl⟩
  exact ⟨h0, List.mem_of_mem_filter hh0, rfl⟩

theorem captureGroups_wf (s : BoardState) (dst : Nat) (hw : wfState s) :
    ∀ g ∈ captureGroups s dst, wfGroup g := by
  unfold captureGroups
  split
  · rename_i gid heq
    intro g hg
    rcases List.mem_filter.mp hg with ⟨hmem, hne⟩
    rcases List.mem_map.mp hmem with ⟨g0, hg0, rfl⟩
    by_cases hgid : (g0.gid == gid) = true
    · rw [if_pos hgid] at hne ⊢
      refine removeHypAt_wf g0 dst (hw g0 hg0).1 ?_
      simpa using hne
    · rw [if_neg hgid] at hne ⊢
      exact hw g0 hg0
  · exact hw

theorem applyDet_wf (s : BoardState) (m : Move) (hw : wfState s) :
    wfState (applyDet s m) := by
  unfold applyDet
  split
  · exact captureGroups_wf s m.dst hw
  · exact hw

theorem captureGroups_kingFree (s : BoardState) (dst : Nat) (hk : kingFree s) :
    ∀ g ∈ captureGroups s dst, ∀ h ∈ g.entries, h.piece.kind ≠ .king := by
  unfold captureGroups
  split
  · intro g hg h hh
    rcases List.mem_filter.mp hg with ⟨hmem, -⟩
    rcases List.mem_map.mp hmem with ⟨g0, hg0, rfl⟩
    split at hh
    · rcases removeHypAt_piece g0 dst h hh with ⟨h0, hh0, hpiece⟩
      rw [hpiece]
      exact hk g0 hg0 h0 hh0
    · exact hk g0 hg0 h hh
  · exact hk

theorem applyDet_kingFree (s : BoardState) (m : Move) (hk : kingFree s) :
    kingFree (applyDet s m) := by
  unfold applyDet
  split
  · exact captureGroups_kingFree s m.dst hk
  · exact hk

theorem detBranch_wf (s : BoardState) (m : Move) (hw : wfState s) :
    wfState (detBranch s m).state :=
  applyDet_wf s m hw

theorem newPairGroup_wf (gid : Nat) (dst alt : Nat) (moved : Piece) :
    wfGroup ⟨gid, [⟨dst, moved, 3 / 5⟩, ⟨alt, moved, 2 / 5⟩]⟩ := by
  constructor
  · intro h hh
    rcases List.mem_cons.mp hh with rfl | hh
    · norm_num
    · rcases List.mem_cons.mp hh with rfl | hh
      · norm_num
      · cases hh
  · show ((3 : ℚ) / 5) + (2 / 5 + 0) = 1
    norm_num

theorem singletonGroup_wf (gid : Nat) (sq : Nat) (p : Piece) :
    wfGroup ⟨gid, [⟨sq, p, 1⟩]⟩ := by
  constructor
  · intro h hh
    rcases List.mem_cons.mp hh with rfl | hh
    · norm_num
    · cases hh
  · show (1 : ℚ) + 0 = 1
    norm_num

theorem superpositionBranch_wf (s : BoardState) (m : Move) (moved : Piece) (hw : wfState s) :
    wfState (superpositionBranch s m moved).state := by
  unfold superpositionBranch
  split
  · exact detBranch_wf s m hw
  · intro g hg
    rcases List.mem_append.mp hg with h | h
    · exact applyDet_wf s m hw g h
    · rcases List.mem_cons.mp h with rfl | h
      · exact newPairGroup_wf _ _ _ _
      · cases h

theorem measurementBranch_wf (s : BoardState) (m : Move) (seed : Nat) (hw : wfState s) :
    wfState (measurementBranch s m seed).state := by
  unfold measurementBranch
  split
  · exact detBranch_wf s m hw
  · exact applyDet_wf (measure s seed) m (measure_wf s seed)

theorem entanglementBranch_wf (s : BoardState) (m : Move) (moved : Piece) (hw : wfState s) :
    wfState (entanglementBranch s m moved).state := by
  unfold entanglementBranch
  split
  · intro g hg
    rcases List.mem_append.mp hg with h | h
    · exact applyDet_wf s m hw g h
    · rcases List.mem_cons.mp h with rfl | h
      · exact newPairGroup_wf _ _ _ _
      · rcases List.mem_cons.mp h with rfl | h
        · exact singletonGroup_wf _ _ _
        · cases h
  · exact detBranch_wf s m hw

theorem quantumBranch_wf (s : BoardState) (m : Move) (p : Piece) (q : ℚ) (seed : Nat)
    (hw : wfState s) : wfState (quantumBranch s m p q seed).state := by
  unfold quantumBranch
  split
  · exact detBranch_wf s m hw
  · split
    · exact superpositionBranch_wf s m (movedPiece p m) hw
    · exact measurementBranch_wf s m _ hw
    · exact entanglementBranch_wf s m (movedPiece p m) hw

theorem applyMove_wf (s : BoardState) (m : Move) (c : Color) (q : ℚ) (seed : Nat)
    (bs : List Branch) (hw : wfState s) (h : applyMove s m c q seed = .ok bs) :
    ∀ b ∈ bs, wfState b.state := by
  unfold applyMove at h
  split at h
  · split at h
    · cases h
      intro b hb
      rcases List.mem_cons.mp hb with rfl | hb
      · exact quantumBranch_wf s m _ q seed hw
      · cases hb
    · cases h
  · cases h

theorem reachable_wf {s t : BoardState} (hw : wfState s) (hr : Reachable s t) :
    wfState t := by
  induction hr with
  | refl => exact hw
  | measureStep seed hr ih => exact measure_wf _ _
  | moveStep hr hok hmem ih => exact applyMove_wf _ _ _ _ _ _ ih hok _ hmem

/-! ## Claim theorems -/

/-- C1: on every Board State reachable from a well-formed state by
`applyMove` branches or `measure` calls, the probabilities within any
single Superposition Group sum to 1.0 within a tolerance of 1e-6 (the
exact rational sum is 1, so the tolerance holds). -/
theorem reachable_group_probs_sum_one {s t : BoardState} (hw : wfState s)
    (hr : Reachable s t) :
    ∀ g ∈ t.groups, |(groupProbs g).sum - 1| ≤ 1 / 1000000 := by
  intro g hg
  rw [(reachable_wf hw hr g hg).2]
  norm_num

/-- Witness for C1: the concrete entangled demonstration state is
well-formed and its group probabilities sum to 1 within tolerance. -/
theorem reachable_group_probs_sum_one_witness :
    wfState demoEntangled ∧
      ∀ g ∈ demoEntangled.groups, |(groupProbs g).sum - 1| ≤ 1 / 1000000 := by
  have hw : wfState demoEntangled := by
    norm_num [demoEntangled, demoGroupA, demoGroupB, wfState, wfGroup, groupProbs]
  exact ⟨hw, reachable_group_probs_sum_one hw (Reachable.refl demoEntangled)⟩

/-- C3: for every Board State and every seed, the output of `measure`
is fully definite — no square refers to a Superposition Group. -/
theorem measure_always_definite (s : BoardState) (seed : Nat) :
    isDefiniteState (measure s seed) :=
  ⟨resolveCells_not_superposed _ _ _, rfl, rfl⟩

/-- Witness for C3 at a concrete superposed state and seed. -/
theorem measure_always_definite_witness : isDefiniteState (measure demoEntangled 3) :=
  measure_always_definite demoEntangled 3

/-- C4: `measure` is idempotent — measuring a measured state with the
same seed changes nothing, and measuring an already-definite state is a
no-op. -/
theorem measure_idempotent (s : BoardState) (seed : Nat) :
    measure (measure s seed) seed = measure s seed ∧
      (isDefiniteState s → measure s seed = s) := by
  constructor
  · show (⟨resolveCells (measureOutcomes (measure s seed) seed) 0
        (resolveCells (measureOutcomes s seed) 0 s.cells), [], []⟩ : BoardState) = measure s seed
    rw [measureOutcomes_nil_groups _ _ rfl,
      resolveCells_id _ _ _ (resolveCells_not_superposed (measureOutcomes s seed) 0 s.cells)]
    rfl
  · rintro ⟨hc, hg, hl⟩
    show (⟨resolveCells (measureOutcomes s seed) 0 s.cells, [], []⟩ : BoardState) = s
    rw [measureOutcomes_nil_groups _ _ hg, resolveCells_id _ _ _ hc]
    obtain ⟨cs, gs, ls⟩ := s
    simp only at hg hl
    rw [hg, hl]

/-- Witness for C4 at a concrete definite state and seed. -/
theorem measure_idempotent_witness :
    isDefiniteState demoDefiniteBoard ∧
      measure (measure demoDefiniteBoard 5) 5 = measure demoDefiniteBoard 5 ∧
      measure demoDefiniteBoard 5 = demoDefiniteBoard :=
  ⟨by decide, (measure_idempotent demoDefiniteBoard 5).1,
    (measure_idempotent demoDefiniteBoard 5).2 (by decide)⟩

/-- C5: for every board, king move and quantum-probability parameter
(including p = 1.0), `applyMove` emits exactly one Branch, labelled
deterministic with probability 1.0, and no king is ever placed into a
Superposition Group (king-freeness of the arena is preserved). -/
theorem applyMove_king_deterministic (s : BoardState) (m : Move) (c : Color) (q : ℚ)
    (seed : Nat) (p : Piece) (hf : cellAt s m.src = .definite p) (hc : p.color = c)
    (hk : p.kind = .king) (hkf : kingFree s) :
    ∃ b, applyMove s m c q seed = .ok [b] ∧ b.label = .deterministic ∧ b.prob = 1 ∧
      kingFree b.state := by
  refine ⟨detBranch s m, ?_, rfl, rfl, applyDet_kingFree s m hkf⟩
  unfold applyMove
  rw [hf]
  show (if p.color = c then Except.ok [quantumBranch s m p q seed]
    else Except.error MoveError.invalidMove) = Except.ok [detBranch s m]
  rw [if_pos hc]
  unfold quantumBranch
  rw [if_pos (Or.inr hk)]

/-- Witness for C5: the white king moving on the concrete king board
with quantumProbability 1.0. -/
theorem applyMove_king_deterministic_witness :
    ∃ b, applyMove kingBoard ⟨4, 12, none⟩ .white 1 9 = .ok [b] ∧
      b.label = .deterministic ∧ b.prob = 1 ∧ kingFree b.state :=
  applyMove_king_deterministic kingBoard ⟨4, 12, none⟩ .white 1 9 ⟨.king, .white⟩
    (by decide) rfl rfl (by decide)

/-- C6: `applyMove` signals InvalidMove exactly when the source square
holds no definite piece of the mover's color; `applyMove` is a pure
function of its inputs, so on the error path the caller's prior Board
State is untouched. -/
theorem applyMove_invalid_iff (s : BoardState) (m : Move) (c : Color) (q : ℚ)
    (seed : Nat) :
    applyMove s m c q seed = .error .invalidMove ↔ ¬ hasOwnPiece s m.src c := by
  unfold applyMove hasOwnPiece
  cases hsrc : cellAt s m.src with
  | definite p => by_cases hc : p.color = c <;> simp [hc]
  | empty => simp
  | superposed gid => simp

/-- Witness for C6: an empty source square on the concrete empty
board. -/
theorem applyMove_invalid_iff_witness :
    ¬ hasOwnPiece emptyBoard 12 .white ∧
      applyMove emptyBoard ⟨12, 20, none⟩ .white (mkRat 1 2) 3 = .error .invalidMove :=
  ⟨by decide,
   (applyMove_invalid_iff emptyBoard ⟨12, 20, none⟩ .white (mkRat 1 2) 3).mpr (by decide)⟩

/-- C7: `findBestMove` is deterministic — two calls with identical
Board State, color, depth, deadline, quantum-probability and seed
arguments return identical results (all randomness is threaded through
the explicit seed). -/
theorem findBestMove_deterministic (s₁ s₂ : BoardState) (c₁ c₂ : Color)
    (d₁ d₂ dl₁ dl₂ : Nat) (q₁ q₂ : ℚ) (n₁ n₂ : Nat) (hs : s₁ = s₂) (hc : c₁ = c₂)
    (hd : d₁ = d₂) (hdl : dl₁ = dl₂) (hq : q₁ = q₂) (hn : n₁ = n₂) :
    findBestMove s₁ c₁ d₁ dl₁ q₁ n₁ = findBestMove s₂ c₂ d₂ dl₂ q₂ n₂ := by
  rw [hs, hc, hd, hdl, hq, hn]

/-- Witness for C7: two identical concrete calls coincide. -/
theorem findBestMove_deterministic_witness :
    findBestMove kingBoard .white 1 0 (mkRat 1 2) 3
      = findBestMove kingBoard .white 1 0 (mkRat 1 2) 3 :=
  findBestMove_deterministic kingBoard kingBoard .white .white 1 1 0 0 (mkRat 1 2)
    (mkRat 1 2) 3 3 rfl rfl rfl rfl rfl rfl

/-- C8: when the side to move has no legal moves, `findBestMove`
returns a null move together with the terminal score instead of
raising an error. -/
theorem findBestMove_no_moves (s : BoardState) (c : Color) (depth dl : Nat) (q : ℚ)
    (seed : Nat) (h : legalMoves s c = []) :
    findBestMove s c depth dl q seed = { move := none, score := terminalScore c depth } := by
  unfold findBestMove
  rw [h]

/-- Witness for C8: the empty board has no legal moves and the search
returns the null move with the terminal score. -/
theorem findBestMove_no_moves_witness :
    legalMoves emptyBoard .white = [] ∧
      findBestMove emptyBoard .white 2 0 (mkRat 1 2) 3
        = { move := none, score := terminalScore .white 2 } :=
  ⟨by decide, findBestMove_no_moves emptyBoard .white 2 0 (mkRat 1 2) 3 (by decide)⟩

/-- C9: the preload bridge's `invoke` forwards to `ipcRenderer.invoke`
exactly on the five allow-listed channels and returns a rejected
promise on every other channel; `send` performs an IPC call exactly on
the `SEND_CHANNELS` list and nothing otherwise. -/
theorem bridge_allowlists (ch : String) :
    (bridgeInvoke ch = .forwarded ch ↔ ch ∈ invokeAllowed) ∧
      (bridgeInvoke ch = .rejected ch ↔ ch ∉ invokeAllowed) ∧
      (bridgeSend ch = .ipcSend ch ↔ ch ∈ sendChannels) ∧
      (bridgeSend ch = .noIpc ↔ ch ∉ sendChannels) := by
  unfold bridgeInvoke bridgeSend
  by_cases h1 : ch ∈ invokeAllowed <;> by_cases h2 : ch ∈ sendChannels <;> simp [h1, h2]

/-- Witness for C9: `app:check-updates` may be sent but not invoked,
while `game:save` is invoked. -/
theorem bridge_allowlists_witness :
    bridgeInvoke "app:check-updates" = .rejected "app:check-updates" ∧
      bridgeSend "app:check-updates" = .ipcSend "app:check-updates" ∧
      bridgeInvoke "game:save" = .forwarded "game:save" :=
  ⟨(bridge_allowlists "app:check-updates").2.1.mpr (by decide),
   (bridge_allowlists "app:check-updates").2.2.1.mpr (by decide),
   (bridge_allowlists "game:save").1.mpr (by decide)⟩

/-- C10: each of the four UI-store toggle actions is an involution and
changes only its own field, leaving the other three fields unchanged. -/
theorem uiStore_toggles_involutive (st : UIStore) :
    toggleQuantumOverlay (toggleQuantumOverlay st) = st ∧
      toggleAnalysisPanel (toggleAnalysisPanel st) = st ∧
      toggleTheme (toggleTheme st) = st ∧
      flipBoard (flipBoard st) = st ∧
      (toggleQuantumOverlay st).showAnalysisPanel = st.showAnalysisPanel ∧
      (toggleQuantumOverlay st).theme = st.theme ∧
      (toggleQuantumOverlay st).boardFlipped = st.boardFlipped ∧
      (toggleAnalysisPanel st).showQuantumOverlay = st.showQuantumOverlay ∧
      (toggleAnalysisPanel st).theme = st.theme ∧
      (toggleAnalysisPanel st).boardFlipped = st.boardFlipped ∧
      (toggleTheme st).showQuantumOverlay = st.showQuantumOverlay ∧
      (toggleTheme st).showAnalysisPanel = st.showAnalysisPanel ∧
      (toggleTheme st).boardFlipped = st.boardFlipped ∧
      (flipBoard st).showQuantumOverlay = st.showQuantumOverlay ∧
      (flipBoard st).showAnalysisPanel = st.showAnalysisPanel ∧
      (flipBoard st).theme = st.theme := by
  obtain ⟨a, b, t, f⟩ := st
  cases t <;>
    simp [toggleQuantumOverlay, toggleAnalysisPanel, toggleTheme, flipBoard]

/-- Witness for C10 at the store's initial state. -/
theorem uiStore_toggles_involutive_witness :
    toggleQuantumOverlay (toggleQuantumOverlay initialUIStore) = initialUIStore ∧
      toggleAnalysisPanel (toggleAnalysisPanel initialUIStore) = initialUIStore ∧
      toggleTheme (toggleTheme initialUIStore) = initialUIStore ∧
      flipBoard (flipBoard initialUIStore) = initialUIStore ∧
      (toggleQuantumOverlay initialUIStore).showAnalysisPanel
        = initialUIStore.showAnalysisPanel ∧
      (toggleQuantumOverlay initialUIStore).theme = initialUIStore.theme ∧
      (toggleQuantumOverlay initialUIStore).boardFlipped = initialUIStore.boardFlipped ∧
      (toggleAnalysisPanel initialUIStore).showQuantumOverlay
        = initialUIStore.showQuantumOverlay ∧
      (toggleAnalysisPanel initialUIStore).theme = initialUIStore.theme ∧
      (toggleAnalysisPanel initialUIStore).boardFlipped = initialUIStore.boardFlipped ∧
      (toggleTheme initialUIStore).showQuantumOverlay
        = initialUIStore.showQuantumOverlay ∧
      (toggleTheme initialUIStore).showAnalysisPanel = initialUIStore.showAnalysisPanel ∧
      (toggleTheme initialUIStore).boardFlipped = initialUIStore.boardFlipped ∧
      (flipBoard initialUIStore).showQuantumOverlay
        = initialUIStore.showQuantumOverlay ∧
      (flipBoard initialUIStore).showAnalysisPanel = initialUIStore.showAnalysisPanel ∧
      (flipBoard initialUIStore).theme = initialUIStore.theme :=
  uiStore_toggles_involutive initialUIStore

/-- The joint outcome list of a two-group entangled state, computed. -/
theorem measureOutcomes_entangled (cells : List Cell) (A B : Group) (seed : Nat)
    (hne : A.gid ≠ B.gid) :
    measureOutcomes ⟨cells, [A, B], [(A.gid, B.gid)]⟩ seed
      = [(A.gid, A.entries.getD (sampleIndex (groupProbs A) (randQ seed)) default),
         (B.gid, B.entries.getD
           (sampleIndex (groupProbs A) (randQ seed) % B.entries.length) default)] := by
  have hAA : (A.gid == A.gid) = true := beq_self_eq_true A.gid
  have hBB : (B.gid == B.gid) = true := beq_self_eq_true B.gid
  have hAB : (A.gid == B.gid) = false := beq_eq_false_iff_ne.mpr hne
  have hBA : (B.gid == A.gid) = false := beq_eq_false_iff_ne.mpr (Ne.symm hne)
  simp [measureOutcomes, stepGroup, findGroup, List.find?, List.lookup, hAA, hBB, hAB, hBA]

theorem stepGroup_extend (gsAll : List Group) (ls : List (Nat × Nat))
    (acc : List (Nat × Hyp) × Nat) (g : Group) :
    ∃ app, (stepGroup gsAll ls acc g).1 = acc.1 ++ app := by
  unfold stepGroup
  split
  · exact ⟨[], (List.append_nil _).symm⟩
  · split
    · split
      · exact ⟨_, rfl⟩
      · exact ⟨_, rfl⟩
    · exact ⟨_, rfl⟩

theorem stepGroup_lookup_some (gsAll : List Group) (ls : List (Nat × Nat))
    (acc : List (Nat × Hyp) × Nat) (g : Group) (k : Nat) (v : Hyp)
    (hk : acc.1.lookup k = some v) :
    (stepGroup gsAll ls acc g).1.lookup k = some v := by
  obtain ⟨app, happ⟩ := stepGroup_extend gsAll ls acc g
  rw [happ, List.lookup_append, hk]
  rfl

theorem stepGroup_lookup_none (gsAll : List Group) (ls : List (Nat × Nat))
    (acc : List (Nat × Hyp) × Nat) (g : Group) (k : Nat)
    (hk : acc.1.lookup k = none) (hkg : k ≠ g.gid)
    (hkl : ∀ l ∈ ls, l.1 = g.gid ∨ l.2 = g.gid → l.1 ≠ k ∧ l.2 ≠ k) :
    (stepGroup gsAll ls acc g).1.lookup k = none := by
  have hkgb : (k == g.gid) = false := beq_eq_false_iff_ne.mpr hkg
  unfold stepGroup
  split
  · exact hk
  · split
    · rename_i l hfind
      have hl12 : l.1 = g.gid ∨ l.2 = g.gid := by
        have hlp := List.find?_some hfind
        rcases (Bool.or_eq_true _ _).mp hlp with h | h
        · exact Or.inl (beq_iff_eq.mp h)
        · exact Or.inr (beq_iff_eq.mp h)
      have hkl' := hkl l (List.mem_of_find?_eq_some hfind) hl12
      have hb1 : (k == l.1) = false := beq_eq_false_iff_ne.mpr (Ne.symm hkl'.1)
      have hb2 : (k == l.2) = false := beq_eq_false_iff_ne.mpr (Ne.symm hkl'.2)
      split
      · rw [List.lookup_append, hk]
        simp [List.lookup_cons, hb1, hb2]
      · rw [List.lookup_append, hk]
        simp [List.lookup_cons, hkgb]
    · rw [List.lookup_append, hk]
      simp [List.lookup_cons, hkgb]

theorem stepGroup_joint (gsAll : List Group) (ls : List (Nat × Nat)) (A B : Group)
    (acc : List (Nat × Hyp) × Nat) (g : Group) (hA : wfGroup A)
    (hfA : findGroup gsAll A.gid = some A) (hfB : findGroup gsAll B.gid = some B)
    (hne : A.gid ≠ B.gid) (hlink : (A.gid, B.gid) ∈ ls)
    (honly : ∀ l ∈ ls, l.1 = A.gid ∨ l.2 = A.gid ∨ l.1 = B.gid ∨ l.2 = B.gid →
      l = (A.gid, B.gid))
    (hgid : g.gid = A.gid ∨ g.gid = B.gid)
    (hkA : acc.1.lookup A.gid = none) (hkB : acc.1.lookup B.gid = none) :
    jointDone A B (stepGroup gsAll ls acc g).1 := by
  have hglookup : acc.1.lookup g.gid = none := by
    rcases hgid with h | h <;> rw [h] <;> assumption
  have hfind : ls.find? (fun l => l.1 == g.gid || l.2 == g.gid) = some (A.gid, B.gid) := by
    have hsome : (ls.find? (fun l => l.1 == g.gid || l.2 == g.gid)).isSome := by
      rw [List.find?_isSome]
      refine ⟨(A.gid, B.gid), hlink, ?_⟩
      rcases hgid with h | h <;> simp [h]
    obtain ⟨l, hl⟩ := Option.isSome_iff_exists.mp hsome
    have hlp := List.find?_some hl
    have hl12 : l.1 = g.gid ∨ l.2 = g.gid := by
      rcases (Bool.or_eq_true _ _).mp hlp with h | h
      · exact Or.inl (beq_iff_eq.mp h)
      · exact Or.inr (beq_iff_eq.mp h)
    have hleq : l = (A.gid, B.gid) := by
      refine honly l (List.mem_of_find?_eq_some hl) ?_
      rcases hl12 with h | h <;> rcases hgid with h2 | h2
      · exact Or.inl (h.trans h2)
      · exact Or.inr (Or.inr (Or.inl (h.trans h2)))
      · exact Or.inr (Or.inl (h.trans h2))
      · exact Or.inr (Or.inr (Or.inr (h.trans h2)))
    rw [hl, hleq]
  unfold stepGroup
  rw [hglookup, hfind]
  simp only [Option.isSome_none, Bool.false_eq_true, if_false, hfA, hfB]
  refine ⟨sampleIndex (groupProbs A) (randQ acc.2), ?_, ?_, ?_⟩
  · have h1 : sampleIndex (groupProbs A) (randQ acc.2) < (groupProbs A).length :=
      sampleIndex_lt_length _ _ (randQ_nonneg acc.2)
        (by rw [hA.2]; exact randQ_lt_one acc.2)
    simpa [groupProbs] using h1
  · rw [List.lookup_append, hkA]
    simp [List.lookup_cons]
  · rw [List.lookup_append, hkB]
    simp [List.lookup_cons, beq_eq_false_iff_ne.mpr (Ne.symm hne)]

theorem foldl_joint (gsAll : List Group) (ls : List (Nat × Nat)) (A B : Group)
    (hA : wfGroup A) (hfA : findGroup gsAll A.gid = some A)
    (hfB : findGroup gsAll B.gid = some B) (hne : A.gid ≠ B.gid)
    (hlink : (A.gid, B.gid) ∈ ls)
    (honly : ∀ l ∈ ls, l.1 = A.gid ∨ l.2 = A.gid ∨ l.1 = B.gid ∨ l.2 = B.gid →
      l = (A.gid, B.gid))
    (gs : List Group) (acc : List (Nat × Hyp) × Nat)
    (h : jointDone A B acc.1 ∨
      (acc.1.lookup A.gid = none ∧ acc.1.lookup B.gid = none ∧ (A ∈ gs ∨ B ∈ gs))) :
    jointDone A B ((gs.foldl (stepGroup gsAll ls) acc).1) := by
  induction gs generalizing acc with
  | nil =>
    rcases h with h | ⟨-, -, hmem⟩
    · simpa using h
    · rcases hmem with h | h <;> cases h
  | cons g rest ih =>
    rw [List.foldl_cons]
    rcases h with h | ⟨hkA, hkB, hmem⟩
    · refine ih _ (Or.inl ?_)
      obtain ⟨i, hi, hA', hB'⟩ := h
      exact ⟨i, hi, stepGroup_lookup_some gsAll ls acc g _ _ hA',
        stepGroup_lookup_some gsAll ls acc g _ _ hB'⟩
    · by_cases hgid : g.gid = A.gid ∨ g.gid = B.gid
      · exact ih _ (Or.inl
          (stepGroup_joint gsAll ls A B acc g hA hfA hfB hne hlink honly hgid hkA hkB))
      · push_neg at hgid
        have havoid : ∀ k, k = A.gid ∨ k = B.gid →
            ∀ l ∈ ls, l.1 = g.gid ∨ l.2 = g.gid → l.1 ≠ k ∧ l.2 ≠ k := by
          intro k hk l hlmem hlg
          constructor
          · intro h1
            have hl : l = (A.gid, B.gid) := by
              refine honly l hlmem ?_
              rcases hk with rfl | rfl
              · exact Or.inl h1
              · exact Or.inr (Or.inr (Or.inl h1))
            rcases hlg with h2 | h2
            · rw [hl] at h2
              exact hgid.1 h2.symm
            · rw [hl] at h2
              exact hgid.2 h2.symm
          · intro h2'
            have hl : l = (A.gid, B.gid) := by
              refine honly l hlmem ?_
              rcases hk with rfl | rfl
              · exact Or.inr (Or.inl h2')
              · exact Or.inr (Or.inr (Or.inr h2'))
            rcases hlg with h2 | h2
            · rw [hl] at h2
              exact hgid.1 h2.symm
            · rw [hl] at h2
              exact hgid.2 h2.symm
        refine ih _ (Or.inr ⟨?_, ?_, ?_⟩)
        · exact stepGroup_lookup_none gsAll ls acc g A.gid hkA
            (fun he => hgid.1 he.symm) (havoid A.gid (Or.inl rfl))
        · exact stepGroup_lookup_none gsAll ls acc g B.gid hkB
            (fun he => hgid.2 he.symm) (havoid B.gid (Or.inr rfl))
        · rcases hmem with hmA | hmB
          · rcases List.mem_cons.mp hmA with rfl | hmA'
            · exact absurd rfl hgid.1
            · exact Or.inl hmA'
          · rcases List.mem_cons.mp hmB with rfl | hmB'
            · exact absurd rfl hgid.2
            · exact Or.inr hmB'

/-- C2: for every Board State containing two Superposition Groups A and
B (resolved by their group ids in the arena, in any order and alongside
any other groups) joined by an Entanglement Link — the only link
touching this pair — and for every seed, `measure`'s outcome map
collapses the pair through one shared random draw: a single sampled
index `i` within A's outcome list is assigned to A while B is assigned
its outcome `i % |B|`. -/
theorem measure_entangled_joint_draw (s : BoardState) (A B : Group) (seed : Nat)
    (hA : wfGroup A) (hB : wfGroup B)
    (hfA : findGroup s.groups A.gid = some A)
    (hfB : findGroup s.groups B.gid = some B)
    (hlink : (A.gid, B.gid) ∈ s.links)
    (honly : ∀ l ∈ s.links, l.1 = A.gid ∨ l.2 = A.gid ∨ l.1 = B.gid ∨ l.2 = B.gid →
      l = (A.gid, B.gid))
    (hne : A.gid ≠ B.gid) :
    ∃ i, i < A.entries.length ∧ i % B.entries.length < B.entries.length ∧
      (measureOutcomes s seed).lookup A.gid = some (A.entries.getD i default) ∧
      (measureOutcomes s seed).lookup B.gid
        = some (B.entries.getD (i % B.entries.length) default) := by
  have hBne : B.entries ≠ [] := by
    intro h0
    have hsum := hB.2
    unfold groupProbs at hsum
    rw [h0] at hsum
    simp at hsum
  have hBpos : 0 < B.entries.length := List.length_pos.mpr hBne
  have hmemA : A ∈ s.groups := List.mem_of_find?_eq_some hfA
  have hjoint : jointDone A B (measureOutcomes s seed) :=
    foldl_joint s.groups s.links A B hA hfA hfB hne hlink honly s.groups ([], seed)
      (Or.inr ⟨List.lookup_nil, List.lookup_nil, Or.inl hmemA⟩)
  obtain ⟨i, hi, hA', hB'⟩ := hjoint
  exact ⟨i, hi, Nat.mod_lt i hBpos, hA', hB'⟩

/-- Witness for C2: a state carrying an extra unlinked group ahead of
the two linked demonstration groups, measured with seed 7. -/
theorem measure_entangled_joint_draw_witness :
    ∃ i, i < demoGroupA.entries.length ∧
      i % demoGroupB.entries.length < demoGroupB.entries.length ∧
      (measureOutcomes demoEntangledPlus 7).lookup demoGroupA.gid
        = some (demoGroupA.entries.getD i default) ∧
      (measureOutcomes demoEntangledPlus 7).lookup demoGroupB.gid
        = some (demoGroupB.entries.getD (i % demoGroupB.entries.length) default) :=
  measure_entangled_joint_draw demoEntangledPlus demoGroupA demoGroupB 7
    (by norm_num [wfGroup, demoGroupA, groupProbs])
    (by norm_num [wfGroup, demoGroupB, groupProbs])
    rfl rfl (by decide) (by decide) (by decide)

end QuantumChess